import Mathlib

/-!
Verification of the file-selection engine and configuration logic of the
aicodeprep-go repository (internal/selector/selector.go and
internal/config/config.go), as a shallow embedding in Lean 4.

Paths, patterns and error messages are modelled as lists of characters
(type GoStr).  Filesystem interaction (filepath.Glob, filepath.WalkDir,
os.Stat, filepath.Abs, filepath.Rel) is modelled by an explicit
environment record FS; the pure Go standard-library functions
(filepath.Match, filepath.Base, strings.Contains, strings.SplitN,
strings.TrimSuffix, strings.TrimPrefix) are translated directly into
executable Lean functions below.
-/

set_option maxHeartbeats 1000000

namespace AicodeprepGo

/-- Go strings, modelled as lists of characters. -/
abbrev GoStr := List Char

/-- Convert a Lean string literal to a GoStr. -/
def strL (s : String) : GoStr := s.toList

/-- Tests whether the first list is a leading segment of the second
(the semantics of Go strings.HasPrefix). -/
def leadSeg : GoStr → GoStr → Bool
  | [], _ => true
  | _ :: _, [] => false
  | a :: as, b :: bs => a == b && leadSeg as bs

/-- Split a string at the first occurrence of a separator, returning the
text before and after the separator.  Returns none when the separator
does not occur.  This models the effect of Go strings.SplitN with limit 2:
SplitN returns a two-element slice exactly when the separator occurs. -/
def splitFirst : GoStr → GoStr → Option (GoStr × GoStr)
  | [], sep => if sep.isEmpty then some ([], []) else none
  | c :: rest, sep =>
    if leadSeg sep (c :: rest) then some ([], (c :: rest).drop sep.length)
    else (splitFirst rest sep).map (fun pr => (c :: pr.1, pr.2))

/-- Go strings.Contains: the separator occurs as a contiguous substring. -/
def goContains (s sub : GoStr) : Bool := (splitFirst s sub).isSome

/-- Go strings.TrimSuffix with suffix being the path separator, as used in
the selector: removes one trailing slash when present. -/
def trimTrailSlash (s : GoStr) : GoStr :=
  if leadSeg ['/'] s.reverse then s.reverse.tail.reverse else s

/-- Go strings.TrimPrefix with the path separator: removes one leading
slash when present. -/
def trimLeadSlash (s : GoStr) : GoStr :=
  if leadSeg ['/'] s then s.tail else s

/-- Go path/filepath.Base on a Unix system: empty path gives a dot, then
trailing slashes are stripped, the last path element is taken, and a path
consisting only of slashes gives a slash. -/
def baseName (p : GoStr) : GoStr :=
  if p.isEmpty then ['.']
  else
    let q := (p.reverse.dropWhile (fun c => c == '/')).reverse
    let b := (q.reverse.takeWhile (fun c => c != '/')).reverse
    if b.isEmpty then ['/'] else b

/-- True exactly when a Go (value, err) pair models a successful match:
err is nil and the boolean is true. -/
def okTrue : Except Unit Bool → Bool
  | .ok true => true
  | _ => false

/-- True exactly when an Except value is an error. -/
def isErrE {ε α : Type} : Except ε α → Bool
  | .error _ => true
  | .ok _ => false

/-!
Model of Go path/filepath.Match (non-Windows), the glob matcher used by
the selector for suffix and exclude matching.  Match processes the
pattern chunk by chunk; a chunk is a run of non-star characters,
character classes are delimited by square brackets, backslash escapes the
next character, and a star matches any run of non-separator characters.
A malformed pattern yields an error; since Go 1.16 the remainder of the
pattern is validated even on a failed match, so the error result depends
only on the pattern.
-/

/-- One range endpoint inside a character class (Go getEsc): rejects an
empty chunk and a leading dash or closing bracket, strips a backslash
escape, and also errors when nothing follows the endpoint (the class is
then unterminated). -/
def parseLo : GoStr → Except Unit (Char × GoStr)
  | [] => .error ()
  | c :: rest =>
    if c = '-' then .error ()
    else if c = ']' then .error ()
    else if c = '\\' then
      match rest with
      | [] => .error ()
      | d :: rest2 => if rest2.isEmpty then .error () else .ok (d, rest2)
    else if rest.isEmpty then .error () else .ok (c, rest)

theorem parseLo_length : ∀ {ch : GoStr} {c : Char} {r : GoStr},
    parseLo ch = .ok (c, r) → r.length < ch.length := by
  intro ch c r h
  cases ch with
  | nil => simp [parseLo] at h
  | cons a rest =>
    simp only [parseLo] at h
    split at h
    · simp at h
    · split at h
      · simp at h
      · split at h
        · split at h
          · simp at h
          · split at h
            · simp at h
            · simp only [Except.ok.injEq, Prod.mk.injEq] at h
              simp [← h.2]
              omega
        · split at h
          · simp at h
          · simp only [Except.ok.injEq, Prod.mk.injEq] at h
            simp [← h.2]

/-- The range-parsing loop of Go matchChunk for a character class: r is
the character read from the name, first records that no range has been
consumed yet, m records whether some range matched r.  Exits by
consuming the closing bracket once at least one range was read; each
range is one endpoint optionally followed by a dash and a second
endpoint. -/
def parseClass (r : Char) (first m : Bool) (ch : GoStr) : Except Unit (Bool × GoStr) :=
  if ch.head? = some ']' ∧ first = false then .ok (m, ch.tail)
  else
    match hlo : parseLo ch with
    | .error _ => .error ()
    | .ok (lo, ch1) =>
      if ch1.head? = some '-' then
        match hhi : parseLo ch1.tail with
        | .error _ => .error ()
        | .ok (hi, ch3) =>
          parseClass r false (m || (decide (lo ≤ r) && decide (r ≤ hi))) ch3
      else
        parseClass r false (m || (decide (lo ≤ r) && decide (r ≤ lo))) ch1
  termination_by ch.length
  decreasing_by
  · have h1 := parseLo_length hlo
    have h2 := parseLo_length hhi
    have h3 : ch1.tail.length ≤ ch1.length := by
      cases ch1 <;> simp
    omega
  · exact parseLo_length hlo

theorem parseClass_length : ∀ (r : Char) (first m : Bool) (ch : GoStr) (mt : Bool) (res : GoStr),
    parseClass r first m ch = .ok (mt, res) → res.length < ch.length := by
  intro r first m ch
  induction first, m, ch using parseClass.induct r with
  | case1 first m ch hcond =>
    intro mt res h
    rw [parseClass.eq_def] at h
    simp only [if_pos hcond, Except.ok.injEq, Prod.mk.injEq] at h
    cases ch with
    | nil => simp at hcond
    | cons a t => simp [← h.2]
  | case2 first m ch hcond a hlo =>
    intro mt res h
    rw [parseClass.eq_def] at h
    rw [if_neg hcond] at h
    split at h
    · simp at h
    · next lo ch1 heq => rw [hlo] at heq; cases heq
  | case3 first m ch hcond lo ch1 hlo hd a hhi =>
    intro mt res h
    rw [parseClass.eq_def] at h
    rw [if_neg hcond] at h
    split at h
    · simp at h
    · next lo2 ch12 heq =>
      rw [hlo] at heq
      injection heq with heq2
      injection heq2 with e1 e2
      subst e1; subst e2
      rw [if_pos hd] at h
      split at h
      · simp at h
      · next hi2 ch32 heq3 => rw [hhi] at heq3; cases heq3
  | case4 first m ch hcond lo ch1 hlo hd hi ch2 hhi ih =>
    intro mt res h
    rw [parseClass.eq_def] at h
    rw [if_neg hcond] at h
    split at h
    · simp at h
    · next lo2 ch12 heq =>
      rw [hlo] at heq
      injection heq with heq2
      injection heq2 with e1 e2
      subst e1; subst e2
      rw [if_pos hd] at h
      split at h
      · simp at h
      · next hi2 ch32 heq3 =>
        rw [hhi] at heq3
        injection heq3 with heq4
        injection heq4 with e3 e4
        subst e3; subst e4
        have h1 := parseLo_length hlo
        have h2 := parseLo_length hhi
        have h3 := ih mt res h
        have h4 : ch1.tail.length ≤ ch1.length := by cases ch1 <;> simp
        omega
  | case5 first m ch hcond lo ch1 hlo hd ih =>
    intro mt res h
    rw [parseClass.eq_def] at h
    rw [if_neg hcond] at h
    split at h
    · simp at h
    · next lo2 ch12 heq =>
      rw [hlo] at heq
      injection heq with heq2
      injection heq2 with e1 e2
      subst e1; subst e2
      rw [if_neg hd] at h
      have h1 := parseLo_length hlo
      have h3 := ih mt res h
      omega

/-- The chunk-against-name matcher of Go filepath.Match (matchChunk).
The failed flag records that matching has already failed while the chunk
continues to be parsed for well-formedness.  Returns an error for a
malformed chunk, ok none for a well-formed chunk that does not match,
and ok (some rest) with the unconsumed name on success. -/
def matchChunk (ch s : GoStr) (failed : Bool) : Except Unit (Option GoStr) :=
  match ch with
  | [] => if failed then .ok none else .ok (some s)
  | c :: ch1 =>
    let fl := failed || s.isEmpty
    if c = '[' then
      let r : Char := if fl then Char.ofNat 0 else s.headD (Char.ofNat 0)
      let s1 : GoStr := if fl then s else s.tail
      let neg : Bool := ch1.head? == some '^'
      let ch2 := if neg then ch1.tail else ch1
      match hpc : parseClass r true false ch2 with
      | .error _ => .error ()
      | .ok (mt, ch3) => matchChunk ch3 s1 (fl || (mt == neg))
    else if c = '?' then
      if fl then matchChunk ch1 s fl
      else matchChunk ch1 s.tail (s.headD (Char.ofNat 0) == '/')
    else if c = '\\' then
      match ch1 with
      | [] => .error ()
      | e :: ch2 =>
        if fl then matchChunk ch2 s fl
        else matchChunk ch2 s.tail (!(e == s.headD (Char.ofNat 0)))
    else
      if fl then matchChunk ch1 s fl
      else matchChunk ch1 s.tail (!(c == s.headD (Char.ofNat 0)))
  termination_by ch.length
  decreasing_by
  all_goals simp only [List.length_cons]
  all_goals try omega
  · have h1 := parseClass_length _ _ _ _ _ _ hpc
    have h2 : ch2.length ≤ rest.length := by
      unfold ch2
      split
      · cases rest <;> simp
      · simp
    omega

/-- The chunk scanner of Go filepath.Match (scanChunk): the flag tracks
whether the scanner is inside a character class, where a star is not a
chunk boundary and does not end the chunk. -/
def spanChunk : GoStr → Bool → GoStr × GoStr
  | [], _ => ([], [])
  | '\\' :: c :: rest, inr =>
    let pr := spanChunk rest inr
    ('\\' :: c :: pr.1, pr.2)
  | ['\\'], _ => (['\\'], [])
  | '[' :: rest, _ =>
    let pr := spanChunk rest true
    ('[' :: pr.1, pr.2)
  | ']' :: rest, _ =>
    let pr := spanChunk rest false
    (']' :: pr.1, pr.2)
  | '*' :: rest, inr =>
    if inr then
      let pr := spanChunk rest inr
      ('*' :: pr.1, pr.2)
    else ([], '*' :: rest)
  | c :: rest, inr =>
    let pr := spanChunk rest inr
    (c :: pr.1, pr.2)

/-- Leading stars of a pattern are consumed before the chunk is scanned. -/
def dropLeadStars : GoStr → GoStr
  | '*' :: rest => dropLeadStars rest
  | p => p

/-- Go scanChunk: records whether the pattern began with a star, then
splits the remainder into the first chunk and the rest of the pattern. -/
def scanChunk (p : GoStr) : Bool × GoStr × GoStr :=
  let star := p.head? == some '*'
  let pr := spanChunk (dropLeadStars p) false
  (star, pr.1, pr.2)

theorem spanChunk_length : ∀ (q : GoStr) (i : Bool), ((spanChunk q i).2).length ≤ q.length := by
  intro q i
  induction q, i using spanChunk.induct with
  | case1 x => simp [spanChunk]
  | case2 c rest inr ih => simp only [spanChunk.eq_2]; simp; omega
  | case3 x => simp [spanChunk]
  | case4 rest x ih => simp only [spanChunk.eq_4]; simp; omega
  | case5 rest x ih => simp only [spanChunk.eq_5]; simp; omega
  | case6 rest ih => simp only [spanChunk.eq_6]; simp; omega
  | case7 rest inr h => simp only [spanChunk.eq_6]; simp [h]
  | case8 c rest inr h1 h2 h3 h4 h5 ih =>
    rw [spanChunk.eq_7 _ _ _ h1 h2 h3 h4 h5]
    simp
    omega

theorem spanChunk_rest_lt : ∀ (q : GoStr) (i : Bool), q ≠ [] → ¬ q.head? = some '*' →
    ((spanChunk q i).2).length < q.length := by
  intro q i hq hh
  induction q, i using spanChunk.induct with
  | case1 x => exact absurd rfl hq
  | case2 c rest inr ih =>
    have := spanChunk_length rest inr
    simp only [spanChunk.eq_2]
    simp
    omega
  | case3 x => simp [spanChunk]
  | case4 rest x ih =>
    have := spanChunk_length rest true
    simp only [spanChunk.eq_4]
    simp
    omega
  | case5 rest x ih =>
    have := spanChunk_length rest false
    simp only [spanChunk.eq_5]
    simp
    omega
  | case6 rest ih => simp at hh
  | case7 rest inr h => simp at hh
  | case8 c rest inr h1 h2 h3 h4 h5 ih =>
    have := spanChunk_length rest inr
    rw [spanChunk.eq_7 _ _ _ h1 h2 h3 h4 h5]
    simp
    omega

theorem dropLeadStars_length : ∀ (p : GoStr), (dropLeadStars p).length ≤ p.length := by
  intro p
  induction p using dropLeadStars.induct with
  | case1 rest ih => simp [dropLeadStars]; omega
  | case2 p h =>
    cases p with
    | nil => simp [dropLeadStars]
    | cons a t =>
      rw [dropLeadStars.eq_def]
      split
      · next rest heq =>
        exact absurd heq (by intro hx; exact h _ hx)
      · simp

theorem dropLeadStars_head : ∀ (p : GoStr), ¬ (dropLeadStars p).head? = some '*' := by
  intro p
  induction p using dropLeadStars.induct with
  | case1 rest ih => simpa [dropLeadStars] using ih
  | case2 p h =>
    have hself : dropLeadStars p = p := by
      cases p with
      | nil => rfl
      | cons a t =>
        rw [dropLeadStars.eq_def]
        split
        · next rest heq => exact absurd heq (by intro hx; exact h _ hx)
        · rfl
    rw [hself]
    intro hc
    cases p with
    | nil => simp at hc
    | cons a t =>
      simp at hc
      exact h t (by rw [hc])

theorem dropLeadStars_eq_self : ∀ (p : GoStr), ¬ p.head? = some '*' → dropLeadStars p = p := by
  intro p hp
  cases p with
  | nil => rfl
  | cons a t =>
    rw [dropLeadStars.eq_def]
    split
    · next rest heq =>
      exfalso
      apply hp
      cases heq
      rfl
    · rfl

theorem scanChunk_rest_length : ∀ (p : GoStr), p ≠ [] → ((scanChunk p).2.2).length < p.length := by
  intro p hp
  unfold scanChunk
  simp only []
  by_cases hs : p.head? = some '*'
  · cases p with
    | nil => exact absurd rfl hp
    | cons a t =>
      simp at hs
      subst hs
      have h1 : dropLeadStars ('*' :: t) = dropLeadStars t := rfl
      have h2 := dropLeadStars_length t
      have h3 := spanChunk_length (dropLeadStars ('*' :: t)) false
      rw [h1] at h3
      simp
      rw [h1]
      omega
  · rw [dropLeadStars_eq_self p hs]
    exact spanChunk_rest_lt p false hp hs

theorem spanChunk_fst_nil : ∀ (q : GoStr) (i : Bool), (spanChunk q i).1 = [] →
    q = [] ∨ q.head? = some '*' := by
  intro q i
  induction q, i using spanChunk.induct with
  | case1 x => intro _; exact Or.inl rfl
  | case2 c rest inr ih => simp only [spanChunk.eq_2]; simp
  | case3 x => simp [spanChunk]
  | case4 rest x ih => simp only [spanChunk.eq_4]; simp
  | case5 rest x ih => simp only [spanChunk.eq_5]; simp
  | case6 rest ih => simp only [spanChunk.eq_6]; simp
  | case7 rest inr h => intro _; exact Or.inr rfl
  | case8 c rest inr h1 h2 h3 h4 h5 ih =>
    rw [spanChunk.eq_7 _ _ _ h1 h2 h3 h4 h5]
    simp

theorem scanChunk_chunk_nil : ∀ (p : GoStr), (scanChunk p).2.1 = [] → (scanChunk p).2.2 = [] := by
  intro p hchunk
  unfold scanChunk at hchunk ⊢
  simp only [] at hchunk ⊢
  rcases spanChunk_fst_nil (dropLeadStars p) false hchunk with hnil | hstar
  · rw [hnil]
    rfl
  · exact absurd hstar (dropLeadStars_head p)

/-- The final loop of Go Match: before Match returns a failed match with
no error, the remainder of the pattern is checked for syntactic
validity, chunk by chunk, by matching each chunk against the empty
name. -/
def validRest (p : GoStr) : Except Unit Unit :=
  if hp : p.isEmpty then .ok ()
  else
    match matchChunk (scanChunk p).2.1 [] false with
    | .error _ => .error ()
    | .ok _ => validRest (scanChunk p).2.2
  termination_by p.length
  decreasing_by
  exact scanChunk_rest_length p (by simpa using hp)

/-- The star loop of Go Match: after a chunk preceded by a star failed
to match at the current position, matching is retried with one more
leading character of the name skipped, stopping at a path separator.
Returns the unconsumed name of the first acceptable retry, none when
every retry fails, and an error for a malformed chunk. -/
def starLoop (ch rest n : GoStr) (i : Nat) : Except Unit (Option GoStr) :=
  if h : i < n.length ∧ ¬ n.get? i = some '/' then
    match matchChunk ch (n.drop (i + 1)) false with
    | .error _ => .error ()
    | .ok (some t) =>
      if rest.isEmpty && !t.isEmpty then starLoop ch rest n (i + 1)
      else .ok (some t)
    | .ok none => starLoop ch rest n (i + 1)
  else .ok none
  termination_by n.length - i
  decreasing_by
  all_goals omega

/-- Go path/filepath.Match on Unix.  The pattern is consumed chunk by
chunk; a trailing chunk that is a bare star matches any remainder of the
name without a separator; a chunk that matches directly continues the
loop when it is not the last chunk or the name is exhausted; otherwise a
preceding star lets the chunk be retried at later positions in the name;
a failed match validates the remaining pattern before returning false.
The result models the pair (matched, err): ok b for err nil, error
for ErrBadPattern. -/
def goMatch (p n : GoStr) : Except Unit Bool :=
  if hp : p.isEmpty then .ok n.isEmpty
  else
    let star := (scanChunk p).1
    let ch := (scanChunk p).2.1
    let rest := (scanChunk p).2.2
    if star && ch.isEmpty then .ok (!(n.contains '/'))
    else
      match matchChunk ch n false with
      | .error _ => .error ()
      | .ok r =>
        match (match r with
               | some t => if t.isEmpty || !rest.isEmpty then some t else none
               | none => none) with
        | some t => goMatch rest t
        | none =>
          match (if star then starLoop ch rest n 0 else .ok none) with
          | .error _ => .error ()
          | .ok (some t) => goMatch rest t
          | .ok none =>
            match validRest rest with
            | .error _ => .error ()
            | .ok _ => .ok false
  termination_by p.length
  decreasing_by
  · exact scanChunk_rest_length p (by simpa using hp)
  · exact scanChunk_rest_length p (by simpa using hp)

theorem parseClass_indep : ∀ (r : Char) (first m : Bool) (ch : GoStr) (r2 : Char) (m2 : Bool),
    (parseClass r first m ch).map Prod.snd = (parseClass r2 first m2 ch).map Prod.snd := by
  intro r first m ch
  induction first, m, ch using parseClass.induct r with
  | case1 first m ch hcond =>
    intro r2 m2
    rw [parseClass.eq_def, parseClass.eq_def, if_pos hcond, if_pos hcond]
    rfl
  | case2 first m ch hcond a hlo =>
    intro r2 m2
    rw [parseClass.eq_def, parseClass.eq_def, if_neg hcond, if_neg hcond]
    split
    · rfl
    · next lo1 ch1 heq => rw [hlo] at heq; cases heq
  | case3 first m ch hcond lo ch1 hlo hd a hhi =>
    intro r2 m2
    rw [parseClass.eq_def, parseClass.eq_def, if_neg hcond, if_neg hcond]
    split
    · next u heq => rw [hlo] at heq
    · next lo1 ch1x heq =>
      rw [hlo] at heq
      injection heq with h3
      injection h3 with e1 e2
      subst e1; subst e2
      rw [if_pos hd, if_pos hd]
      split
      · rfl
      · next hi1 ch31 heq2 => rw [hhi] at heq2; cases heq2
  | case4 first m ch hcond lo ch1 hlo hd hi ch2 hhi ih =>
    intro r2 m2
    rw [parseClass.eq_def, parseClass.eq_def, if_neg hcond, if_neg hcond]
    split
    · next u heq => rw [hlo] at heq
    · next lo1 ch1x heq =>
      rw [hlo] at heq
      injection heq with h3
      injection h3 with e1 e2
      subst e1; subst e2
      rw [if_pos hd, if_pos hd]
      split
      · next u heq2 => rw [hhi] at heq2
      · next hi1 ch31 heq2 =>
        rw [hhi] at heq2
        injection heq2 with h4
        injection h4 with e3 e4
        subst e3; subst e4
        exact ih r2 (m2 || (decide (lo ≤ r2) && decide (r2 ≤ hi)))
  | case5 first m ch hcond lo ch1 hlo hd ih =>
    intro r2 m2
    rw [parseClass.eq_def, parseClass.eq_def, if_neg hcond, if_neg hcond]
    split
    · next u heq => rw [hlo] at heq
    · next lo1 ch1x heq =>
      rw [hlo] at heq
      injection heq with h3
      injection h3 with e1 e2
      subst e1; subst e2
      rw [if_neg hd, if_neg hd]
      exact ih r2 (m2 || (decide (lo ≤ r2) && decide (r2 ≤ lo)))

theorem parseClass_err_ok_absurd : ∀ {r : Char} {first m : Bool} {ch : GoStr} {u : Unit}
    {r2 : Char} {m2 : Bool} {pr : Bool × GoStr},
    parseClass r first m ch = .error u → parseClass r2 first m2 ch = .ok pr → False := by
  intro r first m ch u r2 m2 pr h1 h2
  have hind := parseClass_indep r first m ch r2 m2
  rw [h1, h2] at hind
  simp [Except.map] at hind

theorem parseClass_ok_ok_snd : ∀ {r : Char} {first m : Bool} {ch : GoStr}
    {r2 : Char} {m2 : Bool} {pr pr2 : Bool × GoStr},
    parseClass r first m ch = .ok pr → parseClass r2 first m2 ch = .ok pr2 → pr2.2 = pr.2 := by
  intro r first m ch r2 m2 pr pr2 h1 h2
  have hind := parseClass_indep r first m ch r2 m2
  rw [h1, h2] at hind
  simp [Except.map] at hind
  exact hind.symm

theorem matchChunk_nil_noerr : ∀ (s : GoStr) (f : Bool), isErrE (matchChunk [] s f) = false := by
  intro s f
  rw [matchChunk.eq_def]
  split
  · split <;> rfl
  · rename_i heq
    cases heq

theorem matchChunk_err_indep_aux : ∀ (N : Nat) (ch : GoStr), ch.length ≤ N →
    ∀ (s : GoStr) (f : Bool) (s2 : GoStr) (f2 : Bool),
    isErrE (matchChunk ch s f) = isErrE (matchChunk ch s2 f2) := by
  intro N
  induction N with
  | zero =>
    intro ch hch s f s2 f2
    cases ch with
    | nil => rw [matchChunk_nil_noerr, matchChunk_nil_noerr]
    | cons c ch1 => simp at hch
  | succ n IH =>
    intro ch hch s f s2 f2
    cases ch with
    | nil => rw [matchChunk_nil_noerr, matchChunk_nil_noerr]
    | cons c ch1 =>
      simp only [List.length_cons] at hch
      conv_lhs => rw [matchChunk.eq_def]
      conv_rhs => rw [matchChunk.eq_def]
      by_cases h1 : c = '['
      · subst h1
        simp only [reduceIte]
        cases heqL : parseClass (if (f || List.isEmpty s) = true then Char.ofNat 0 else List.headD s (Char.ofNat 0)) true false (if (ch1.head? == some '^') = true then ch1.tail else ch1) with
        | error u =>
          cases heqR : parseClass (if (f2 || List.isEmpty s2) = true then Char.ofNat 0 else List.headD s2 (Char.ofNat 0)) true false (if (ch1.head? == some '^') = true then ch1.tail else ch1) with
          | error u2 => rfl
          | ok pr2 => exact (parseClass_err_ok_absurd heqL heqR).elim
        | ok pr =>
          cases heqR : parseClass (if (f2 || List.isEmpty s2) = true then Char.ofNat 0 else List.headD s2 (Char.ofNat 0)) true false (if (ch1.head? == some '^') = true then ch1.tail else ch1) with
          | error u2 => exact (parseClass_err_ok_absurd heqR heqL).elim
          | ok pr2 =>
            obtain ⟨mt, ch3⟩ := pr
            obtain ⟨mt2, ch32⟩ := pr2
            have hsnd : ch32 = ch3 := parseClass_ok_ok_snd heqL heqR
            subst hsnd
            have hlen : List.length ch32 ≤ n := by
              have hlt := parseClass_length _ _ _ _ _ _ heqL
              have hle : List.length (if (ch1.head? == some '^') = true then ch1.tail else ch1) ≤ List.length ch1 := by
                split
                · cases ch1 <;> simp
                · simp
              omega
            exact IH ch32 hlen _ _ _ _
      · by_cases h2 : c = '?'
        · subst h2
          simp only [reduceIte]
          have hne : ¬(('?' : Char) = '[') := by decide
          rw [if_neg hne, if_neg hne]
          have hlen : List.length ch1 ≤ n := by omega
          split
          · split
            · exact IH ch1 hlen _ _ _ _
            · exact IH ch1 hlen _ _ _ _
          · split
            · exact IH ch1 hlen _ _ _ _
            · exact IH ch1 hlen _ _ _ _
        · by_cases h3 : c = '\\'
          · subst h3
            simp only [reduceIte]
            have ha : ¬(('\\' : Char) = '[') := by decide
            have hb : ¬(('\\' : Char) = '?') := by decide
            rw [if_neg ha, if_neg hb, if_neg ha, if_neg hb]
            cases ch1 with
            | nil => rfl
            | cons e ch2 =>
              have hlen : List.length ch2 ≤ n := by simp at hch; omega
              show isErrE (if (f || List.isEmpty s) = true then matchChunk ch2 s (f || List.isEmpty s) else matchChunk ch2 (List.tail s) (!(e == List.headD s (Char.ofNat 0)))) = isErrE (if (f2 || List.isEmpty s2) = true then matchChunk ch2 s2 (f2 || List.isEmpty s2) else matchChunk ch2 (List.tail s2) (!(e == List.headD s2 (Char.ofNat 0))))
              split
              · split
                · exact IH ch2 hlen _ _ _ _
                · exact IH ch2 hlen _ _ _ _
              · split
                · exact IH ch2 hlen _ _ _ _
                · exact IH ch2 hlen _ _ _ _
          · simp only []
            rw [if_neg h1, if_neg h2, if_neg h3, if_neg h1, if_neg h2, if_neg h3]
            have hlen : List.length ch1 ≤ n := by omega
            split
            · split
              · exact IH ch1 hlen _ _ _ _
              · exact IH ch1 hlen _ _ _ _
            · split
              · exact IH ch1 hlen _ _ _ _
              · exact IH ch1 hlen _ _ _ _



theorem matchChunk_err_indep : ∀ (ch s : GoStr) (f : Bool) (s2 : GoStr) (f2 : Bool),
    isErrE (matchChunk ch s f) = isErrE (matchChunk ch s2 f2) :=
  fun ch s f s2 f2 => matchChunk_err_indep_aux ch.length ch (Nat.le_refl _) s f s2 f2

theorem isErrE_true_unit : ∀ {α : Type} {x : Except Unit α}, isErrE x = true → x = .error () := by
  intro α x h
  cases x with
  | error u => cases u; rfl
  | ok a => simp [isErrE] at h

theorem isErrE_false_ok : ∀ {ε α : Type} {x : Except ε α}, isErrE x = false → ∃ a, x = .ok a := by
  intro ε α x h
  cases x with
  | error u => simp [isErrE] at h
  | ok a => exact ⟨a, rfl⟩

theorem starLoop_noerr : ∀ (ch rest n : GoStr) (i : Nat),
    isErrE (matchChunk ch [] false) = false → isErrE (starLoop ch rest n i) = false := by
  intro ch rest n i
  induction i using starLoop.induct ch rest n with
  | case1 x hcond a hm =>
    intro hne
    have h2 := matchChunk_err_indep ch (n.drop (x + 1)) false [] false
    rw [hm, hne] at h2
    simp [isErrE] at h2
  | case2 x hcond t hm hb ih =>
    intro hne
    rw [starLoop.eq_def, dif_pos hcond]
    simp only [hm]
    rw [if_pos hb]
    exact ih hne
  | case3 x hcond t hm hb =>
    intro _
    rw [starLoop.eq_def, dif_pos hcond]
    simp only [hm]
    rw [if_neg hb]
    rfl
  | case4 x hcond hm ih =>
    intro hne
    rw [starLoop.eq_def, dif_pos hcond]
    simp only [hm]
    exact ih hne
  | case5 x hcond =>
    intro _
    rw [starLoop.eq_def, dif_neg hcond]
    rfl

theorem goMatch_err_eq_validRest_aux : ∀ (N : Nat) (p : GoStr), p.length ≤ N → ∀ (n : GoStr),
    isErrE (goMatch p n) = isErrE (validRest p) := by
  intro N
  induction N with
  | zero =>
    intro p hp n
    cases p with
    | nil => rw [goMatch.eq_def, validRest.eq_def]; rfl
    | cons c p1 => simp at hp
  | succ N IH =>
    intro p hp n
    by_cases hpe : p.isEmpty
    · rw [goMatch.eq_def, validRest.eq_def, dif_pos hpe, dif_pos hpe]
      rfl
    · rw [goMatch.eq_def, validRest.eq_def, dif_neg hpe, dif_neg hpe]
      simp only []
      by_cases hstar : ((scanChunk p).1 && (scanChunk p).2.1.isEmpty) = true
      · rw [if_pos hstar]
        have hch : (scanChunk p).2.1 = [] := by
          have h2 := (Bool.and_eq_true _ _).mp hstar
          exact List.isEmpty_iff.mp h2.2
        have hrest := scanChunk_chunk_nil p hch
        rw [hch, hrest]
        rw [show matchChunk [] [] false = Except.ok (some []) from by rw [matchChunk.eq_def]; rfl]
        rw [validRest.eq_def]
        rfl
      · rw [if_neg hstar]
        have hrlen : (scanChunk p).2.2.length ≤ N := by
          have := scanChunk_rest_length p (by simpa using hpe)
          omega
        cases hm : matchChunk (scanChunk p).2.1 n false with
        | error u =>
          have h2 := matchChunk_err_indep (scanChunk p).2.1 n false [] false
          rw [hm] at h2
          have h3 := isErrE_true_unit h2.symm
          rw [h3]
          rfl
        | ok r =>
          have h2 := matchChunk_err_indep (scanChunk p).2.1 n false [] false
          rw [hm] at h2
          obtain ⟨a, ha⟩ := isErrE_false_ok h2.symm
          rw [ha]
          cases r with
          | some t =>
            simp only []
            by_cases hc : (t.isEmpty || !(scanChunk p).2.2.isEmpty) = true
            · rw [if_pos hc]
              exact IH (scanChunk p).2.2 hrlen t
            · rw [if_neg hc]
              by_cases hst : (scanChunk p).1 = true
              · rw [if_pos hst]
                cases hsl : starLoop (scanChunk p).2.1 (scanChunk p).2.2 n 0 with
                | error u2 =>
                  have hne := starLoop_noerr (scanChunk p).2.1 (scanChunk p).2.2 n 0 h2.symm
                  rw [hsl] at hne
                  simp [isErrE] at hne
                | ok v =>
                  cases v with
                  | some t2 => exact IH (scanChunk p).2.2 hrlen t2
                  | none =>
                    cases hv : validRest (scanChunk p).2.2 with
                    | error u3 => rfl
                    | ok u4 => rfl
              · rw [if_neg hst]
                cases hv : validRest (scanChunk p).2.2 with
                | error u3 => rfl
                | ok u4 => rfl
          | none =>
            simp only []
            by_cases hst : (scanChunk p).1 = true
            · rw [if_pos hst]
              cases hsl : starLoop (scanChunk p).2.1 (scanChunk p).2.2 n 0 with
              | error u2 =>
                have hne := starLoop_noerr (scanChunk p).2.1 (scanChunk p).2.2 n 0 h2.symm
                rw [hsl] at hne
                simp [isErrE] at hne
              | ok v =>
                cases v with
                | some t2 => exact IH (scanChunk p).2.2 hrlen t2
                | none =>
                  cases hv : validRest (scanChunk p).2.2 with
                  | error u3 => rfl
                  | ok u4 => rfl
            · rw [if_neg hst]
              cases hv : validRest (scanChunk p).2.2 with
              | error u3 => rfl
              | ok u4 => rfl
theorem goMatch_err_eq_validRest : ∀ (p n : GoStr), isErrE (goMatch p n) = isErrE (validRest p) :=
  fun p n => goMatch_err_eq_validRest_aux p.length p (Nat.le_refl _) n

theorem goMatch_error_imp : ∀ {p a b : GoStr} {u : Unit},
    goMatch p a = .error u → ¬ goMatch p b = .ok true := by
  intro p a b u h1 h2
  have e1 := goMatch_err_eq_validRest p a
  have e2 := goMatch_err_eq_validRest p b
  rw [h1] at e1
  rw [h2] at e2
  rw [← e1] at e2
  simp [isErrE] at e2

/-!
Embedding of internal/selector/selector.go.  The FileSelector data and
its methods SelectFiles, expandGlob, expandRecursiveGlob, isExcluded and
matchesRecursiveExclude are translated directly; the imperative
accumulation loops become structural recursions carrying the accumulated
state (the seen set and the result list).
-/

/-- The two-character recursive marker. -/
def starStar : GoStr := ['*', '*']

/-- Result of a successful os.Stat: the size and whether the file mode
is a regular file. -/
structure StatInfo where
  size : Int
  regular : Bool

/-- One entry visited by filepath.WalkDir, in visit order: the path
handed to the callback, whether the entry is a directory, and whether
the callback receives a non-nil error for this entry. -/
structure WalkEntry where
  path : GoStr
  isDir : Bool
  hasErr : Bool

/-- The filesystem environment used by the selector: filepath.Glob
(which fails only on a malformed pattern), the visit sequence of
filepath.WalkDir from a given root, os.Stat (none models a stat error),
and filepath.Abs and filepath.Rel (none models failure). -/
structure FS where
  glob : GoStr → Except GoStr (List GoStr)
  walk : GoStr → List WalkEntry
  stat : GoStr → Option StatInfo
  abs : GoStr → Option GoStr
  rel : GoStr → GoStr → Option GoStr

/-- FileInfo from selector.go: information about a selected file. -/
structure FileInfo where
  path : GoStr
  size : Int
deriving DecidableEq

/-- FileSelector from selector.go: include patterns, exclude patterns
and the maximum file size. -/
structure FileSelector where
  patterns : List GoStr
  excludes : List GoStr
  maxFileSize : Int

/-- matchesRecursiveExclude: split the exclude pattern at the first
recursive marker; when the piece before it is non-empty the path must
contain it as a substring, and when the piece after it is non-empty the
base name of the path must glob-match it (a Match error counts as no
match, as the error is discarded). -/
def matchesRecursiveExclude (path pattern : GoStr) : Bool :=
  match splitFirst pattern starStar with
  | none => okTrue (goMatch pattern path)
  | some (parts0, parts1) =>
    let pre := trimTrailSlash parts0
    let suf := trimLeadSlash parts1
    if !pre.isEmpty && !(goContains path pre) then false
    else if !suf.isEmpty then okTrue (goMatch suf (baseName path))
    else pre.isEmpty || goContains path pre

/-- isExcluded: a path is excluded when any exclude pattern applies,
recursive patterns via matchesRecursiveExclude and plain patterns by
glob-matching the base name or the full path. -/
def isExcluded (excludes : List GoStr) (path : GoStr) : Bool :=
  excludes.any (fun exc =>
    if goContains exc starStar then matchesRecursiveExclude path exc
    else okTrue (goMatch exc (baseName path)) || okTrue (goMatch exc path))

/-- The body of the filepath.WalkDir callback in expandRecursiveGlob,
applied to the visit sequence: entries with a walk error and directories
are skipped; with an empty suffix every file matches; otherwise the path
relative to the walk root is glob-tested against the suffix and, when
that match returns false, the base name is tested instead; matching
files are appended as absolute paths (a failing Abs drops the entry). -/
def walkCollect (fs : FS) (root suf : GoStr) : List WalkEntry → List GoStr
  | [] => []
  | e :: es =>
    let rest := walkCollect fs root suf es
    if e.hasErr then rest
    else if e.isDir then rest
    else if suf.isEmpty then
      match fs.abs e.path with
      | some a => a :: rest
      | none => rest
    else
      match fs.rel root e.path with
      | none => rest
      | some relPath =>
        match goMatch suf relPath with
        | .error _ => rest
        | .ok true =>
          match fs.abs e.path with
          | some a => a :: rest
          | none => rest
        | .ok false =>
          match goMatch suf (baseName e.path) with
          | .ok true =>
            match fs.abs e.path with
            | some a => a :: rest
            | none => rest
          | _ => rest

/-- expandRecursiveGlob: split the pattern at the first recursive
marker (falling back to plain Glob when SplitN does not produce two
parts), trim a trailing slash from the piece before it and a leading
slash from the piece after it, walk from that piece (or the current
directory when it is empty) and collect matching files.  The walk
callback always returns nil, so WalkDir never reports an error. -/
def expandRecursiveGlob (fs : FS) (pattern : GoStr) : Except GoStr (List GoStr) :=
  match splitFirst pattern starStar with
  | none => fs.glob pattern
  | some (parts0, parts1) =>
    let pre := trimTrailSlash parts0
    let suf := trimLeadSlash parts1
    let root := if pre.isEmpty then ['.'] else pre
    .ok (walkCollect fs root suf (fs.walk root))

/-- Conversion of glob matches to absolute paths in expandGlob: a
failing Abs drops the match. -/
def absList (fs : FS) : List GoStr → List GoStr
  | [] => []
  | m :: ms =>
    match fs.abs m with
    | some a => a :: absList fs ms
    | none => absList fs ms

/-- expandGlob: recursive patterns are expanded by walking; simple
patterns by filepath.Glob, whose matches are made absolute and whose
error is propagated. -/
def expandGlob (fs : FS) (pattern : GoStr) : Except GoStr (List GoStr) :=
  if goContains pattern starStar then expandRecursiveGlob fs pattern
  else
    match fs.glob pattern with
    | .error e => .error e
    | .ok ms => .ok (absList fs ms)

/-- The error text built by SelectFiles when a pattern fails to expand:
failed to expand pattern (single-quoted pattern): wrapped error. -/
def mkExpandErr (pattern errMsg : GoStr) : GoStr :=
  strL "failed to expand pattern " ++ [Char.ofNat 39] ++ pattern
    ++ [Char.ofNat 39] ++ strL ": " ++ errMsg

/-- The inner loop of SelectFiles over the matches of one pattern,
carrying the set of already processed paths and the accumulated result:
a path already seen is skipped; otherwise it is marked seen, then
dropped when excluded, when stat fails, when not a regular file, or
when a positive maximum size is exceeded; surviving paths are appended
with their stat size. -/
def selectLoop (fs : FS) (excludes : List GoStr) (maxFileSize : Int) :
    List GoStr → List GoStr → List FileInfo → List GoStr × List FileInfo
  | [], seen, files => (seen, files)
  | m :: ms, seen, files =>
    if seen.contains m then selectLoop fs excludes maxFileSize ms seen files
    else
      let seen2 := m :: seen
      if isExcluded excludes m then selectLoop fs excludes maxFileSize ms seen2 files
      else
        match fs.stat m with
        | none => selectLoop fs excludes maxFileSize ms seen2 files
        | some info =>
          if !info.regular then selectLoop fs excludes maxFileSize ms seen2 files
          else if maxFileSize > 0 ∧ info.size > maxFileSize then
            selectLoop fs excludes maxFileSize ms seen2 files
          else selectLoop fs excludes maxFileSize ms seen2 (files ++ [⟨m, info.size⟩])

/-- The outer loop of SelectFiles over the include patterns: the first
pattern whose expansion fails aborts the whole selection with a wrapped
error and no result; otherwise the matches are processed by the inner
loop and the loop continues with the remaining patterns. -/
def selectPats (fs : FS) (excludes : List GoStr) (maxFileSize : Int) :
    List GoStr → List GoStr → List FileInfo → Except GoStr (List FileInfo)
  | [], _, files => .ok files
  | p :: ps, seen, files =>
    match expandGlob fs p with
    | .error e => .error (mkExpandErr p e)
    | .ok ms =>
      let pr := selectLoop fs excludes maxFileSize ms seen files
      selectPats fs excludes maxFileSize ps pr.1 pr.2

/-- The effective pattern list of SelectFiles: an empty include list is
replaced by the single pattern consisting of one star. -/
def effPatterns (patterns : List GoStr) : List GoStr :=
  if patterns.isEmpty then [['*']] else patterns

/-- SelectFiles: select files for the effective patterns, starting with
an empty seen set and an empty result. -/
def SelectFiles (fs : FS) (sel : FileSelector) : Except GoStr (List FileInfo) :=
  selectPats fs sel.excludes sel.maxFileSize (effPatterns sel.patterns) [] []

/-!
Embedding of internal/config/config.go.  The YAML file system and
parser are modelled by an environment: reading the file either reports
that it does not exist, fails to open, fails to read, or yields its
contents; unmarshalling merges the contents into a given starting
configuration or fails.
-/

/-- Config from config.go. -/
structure Config where
  Files : List String
  Exclude : List String
  Prompt : String
  MaxFileSize : Int
  Output : String
deriving DecidableEq

/-- DefaultConfig: the built-in defaults, excluding vendored
dependencies, node_modules and the git directory, with a one-megabyte
size limit and clipboard output. -/
def DefaultConfig : Config :=
  { Files := []
    Exclude := ["vendor/**", "node_modules/**", ".git/**"]
    Prompt := ""
    MaxFileSize := 1048576
    Output := "" }

/-- Outcome of opening and reading the configuration file path. -/
inductive FileReadResult where
  | noFile
  | openFail
  | readFail
  | content (data : String)

/-- Environment of LoadConfig: the file read outcome per path and the
YAML unmarshaller, which merges the read data into a starting
configuration or fails on malformed input. -/
structure ConfigEnv where
  read : String → FileReadResult
  unmarshal : String → Config → Except String Config

/-- LoadConfig: a missing file yields the default configuration without
error; open and read failures and YAML parse failures are returned as
errors with a descriptive message. -/
def LoadConfig (env : ConfigEnv) (path : String) : Except String Config :=
  match env.read path with
  | .noFile => .ok DefaultConfig
  | .openFail => .error "failed to open config file"
  | .readFail => .error "failed to read config file"
  | .content data =>
    match env.unmarshal data DefaultConfig with
    | .error e => .error ("failed to parse config file: " ++ e)
    | .ok c => .ok c

/-- Merge from config.go: command line options are merged into the
configuration; file and exclude lists are appended when non-empty, and
prompt, output and the maximum size overwrite only when non-empty or
strictly positive. -/
def Merge (c : Config) (files exclude : List String) (prompt output : String)
    (maxFileSize : Int) : Config :=
  let c1 := if files.length > 0 then { c with Files := c.Files ++ files } else c
  let c2 := if exclude.length > 0 then { c1 with Exclude := c1.Exclude ++ exclude } else c1
  let c3 := if prompt ≠ "" then { c2 with Prompt := prompt } else c2
  let c4 := if output ≠ "" then { c3 with Output := output } else c3
  if maxFileSize > 0 then { c4 with MaxFileSize := maxFileSize } else c4


/-- First-occurrence deduplication of a match stream against a set of
already seen paths: the order of first appearance is preserved and
later occurrences are suppressed. -/
def dedupFirst : List GoStr → List GoStr → List GoStr
  | [], _ => []
  | m :: ms, seen =>
    if seen.contains m then dedupFirst ms seen
    else m :: dedupFirst ms (m :: seen)

/-- The seen set resulting from processing a match stream. -/
def seenAfter : List GoStr → List GoStr → List GoStr
  | [], seen => seen
  | m :: ms, seen =>
    if seen.contains m then seenAfter ms seen else seenAfter ms (m :: seen)

/-- The per-candidate filtering decision of the SelectFiles loop for a
fresh path: excluded paths, stat failures, non-regular files and
oversized files yield nothing, every other path yields its entry. -/
def keepFile (fs : FS) (excludes : List GoStr) (maxFileSize : Int) (m : GoStr) : Option FileInfo :=
  if isExcluded excludes m then none
  else
    match fs.stat m with
    | none => none
    | some info =>
      if !info.regular then none
      else if maxFileSize > 0 ∧ info.size > maxFileSize then none
      else some ⟨m, info.size⟩

/-- Concatenated expansion of a pattern list; the first failing pattern
aborts with the wrapped error, as in SelectFiles. -/
def expandAll (fs : FS) : List GoStr → Except GoStr (List GoStr)
  | [] => .ok []
  | p :: ps =>
    match expandGlob fs p with
    | .error e => .error (mkExpandErr p e)
    | .ok ms =>
      match expandAll fs ps with
      | .error e => .error e
      | .ok rest => .ok (ms ++ rest)

theorem selectLoop_eq : ∀ (fs : FS) (ex : List GoStr) (mx : Int) (ms seen : List GoStr)
    (files : List FileInfo),
    selectLoop fs ex mx ms seen files =
      (seenAfter ms seen, files ++ (dedupFirst ms seen).filterMap (keepFile fs ex mx)) := by
  intro fs ex mx ms
  induction ms with
  | nil => intro seen files; simp [selectLoop, seenAfter, dedupFirst]
  | cons m ms ih =>
    intro seen files
    by_cases hc : seen.contains m = true
    · simp only [selectLoop, seenAfter, dedupFirst, if_pos hc]
      exact ih seen files
    · simp only [selectLoop, seenAfter, dedupFirst, if_neg hc]
      by_cases he : isExcluded ex m = true
      · simp only [if_pos he]
        rw [ih (m :: seen) files]
        simp [List.filterMap_cons, keepFile, he]
      · simp only [if_neg he]
        cases hs : fs.stat m with
        | none =>
          rw [ih (m :: seen) files]
          simp [List.filterMap_cons, keepFile, he, hs]
        | some info =>
          by_cases hr : (!info.regular) = true
          · simp only [if_pos hr]
            rw [ih (m :: seen) files]
            simp [List.filterMap_cons, keepFile, he, hs, hr]
          · simp only [if_neg hr]
            by_cases hz : mx > 0 ∧ info.size > mx
            · simp only [if_pos hz]
              rw [ih (m :: seen) files]
              simp [List.filterMap_cons, keepFile, he, hs, hr, hz]
            · simp only [if_neg hz]
              rw [ih]
              simp [List.filterMap_cons, keepFile, he, hs, hr, hz]

theorem dedupFirst_append : ∀ (ms ms2 seen : List GoStr),
    dedupFirst (ms ++ ms2) seen = dedupFirst ms seen ++ dedupFirst ms2 (seenAfter ms seen) := by
  intro ms
  induction ms with
  | nil => intro ms2 seen; simp [dedupFirst, seenAfter]
  | cons m ms ih =>
    intro ms2 seen
    by_cases hc : seen.contains m = true
    · simp only [List.cons_append, dedupFirst, seenAfter, if_pos hc, List.append_eq]
      exact ih ms2 seen
    · simp only [List.cons_append, dedupFirst, seenAfter, if_neg hc, List.append_eq]
      rw [ih ms2 (m :: seen)]

theorem selectPats_ok : ∀ (fs : FS) (ex : List GoStr) (mx : Int) (ps : List GoStr)
    (all seen : List GoStr) (files : List FileInfo),
    expandAll fs ps = .ok all →
    selectPats fs ex mx ps seen files =
      .ok (files ++ (dedupFirst all seen).filterMap (keepFile fs ex mx)) := by
  intro fs ex mx ps
  induction ps with
  | nil =>
    intro all seen files h
    simp only [expandAll, Except.ok.injEq] at h
    subst h
    simp [selectPats, dedupFirst]
  | cons p ps ih =>
    intro all seen files h
    simp only [expandAll] at h
    cases heg : expandGlob fs p with
    | error e => rw [heg] at h; cases h
    | ok ms =>
      rw [heg] at h
      cases hea : expandAll fs ps with
      | error e => rw [hea] at h; cases h
      | ok rest =>
        rw [hea] at h
        injection h with h2
        subst h2
        simp only [selectPats, heg]
        rw [selectLoop_eq]
        rw [ih rest (seenAfter ms seen) (files ++ (dedupFirst ms seen).filterMap (keepFile fs ex mx)) hea]
        rw [dedupFirst_append]
        simp [List.filterMap_append]

theorem expandGlob_rec_ok : ∀ (fs : FS) (p : GoStr), goContains p starStar = true →
    ∃ ms, expandGlob fs p = .ok ms := by
  intro fs p hc
  rw [expandGlob]
  rw [if_pos hc]
  rw [expandRecursiveGlob]
  cases hsp : splitFirst p starStar with
  | none => rw [goContains, hsp] at hc; cases hc
  | some pr =>
    obtain ⟨pa, pb⟩ := pr
    exact ⟨_, rfl⟩

theorem expandGlob_err_iff : ∀ (fs : FS) (p : GoStr),
    (∃ e, expandGlob fs p = .error e) ↔
      (goContains p starStar = false ∧ ∃ e2, fs.glob p = .error e2) := by
  intro fs p
  constructor
  · intro ⟨e, he⟩
    by_cases hc : goContains p starStar = true
    · obtain ⟨ms, hms⟩ := expandGlob_rec_ok fs p hc
      rw [hms] at he
      cases he
    · refine ⟨by simpa using hc, ?_⟩
      rw [expandGlob, if_neg hc] at he
      cases hg : fs.glob p with
      | error e2 => exact ⟨e2, rfl⟩
      | ok ms => rw [hg] at he; cases he
  · intro ⟨hc, e2, hg⟩
    rw [expandGlob]
    rw [if_neg (by simp [hc])]
    rw [hg]
    exact ⟨e2, rfl⟩

theorem expandGlob_err_val : ∀ (fs : FS) (p : GoStr) (e : GoStr),
    goContains p starStar = false → fs.glob p = .error e → expandGlob fs p = .error e := by
  intro fs p e hc hg
  rw [expandGlob, if_neg (by simp [hc]), hg]

theorem selectPats_err_iff : ∀ (fs : FS) (ex : List GoStr) (mx : Int) (ps : List GoStr)
    (seen : List GoStr) (files : List FileInfo),
    (∃ e, selectPats fs ex mx ps seen files = .error e) ↔
      (∃ p ∈ ps, goContains p starStar = false ∧ ∃ e2, fs.glob p = .error e2) := by
  intro fs ex mx ps
  induction ps with
  | nil =>
    intro seen files
    constructor
    · intro ⟨e, he⟩
      simp [selectPats] at he
    · intro ⟨p, hp, _⟩
      simp at hp
  | cons p ps ih =>
    intro seen files
    cases heg : expandGlob fs p with
    | error e =>
      constructor
      · intro _
        have h2 := (expandGlob_err_iff fs p).mp ⟨e, heg⟩
        exact ⟨p, by simp, h2⟩
      · intro _
        refine ⟨mkExpandErr p e, ?_⟩
        simp only [selectPats, heg]
    | ok ms =>
      constructor
      · intro ⟨e, he⟩
        simp only [selectPats, heg] at he
        have h2 := (ih _ _).mp ⟨e, he⟩
        obtain ⟨q, hq, h3⟩ := h2
        exact ⟨q, by simp [hq], h3⟩
      · intro ⟨q, hq, h3, e2, hg⟩
        simp only [List.mem_cons] at hq
        cases hq with
        | inl hqp =>
          subst hqp
          have : ∃ e, expandGlob fs q = .error e := (expandGlob_err_iff fs q).mpr ⟨h3, e2, hg⟩
          obtain ⟨e, hee⟩ := this
          rw [heg] at hee
          cases hee
        | inr hqs =>
          have h4 := (ih (seenAfter ms seen) (files ++ (dedupFirst ms seen).filterMap (keepFile fs ex mx))).mpr ⟨q, hqs, h3, e2, hg⟩
          obtain ⟨e, he⟩ := h4
          refine ⟨e, ?_⟩
          simp only [selectPats, heg]
          rw [selectLoop_eq]
          exact he

theorem contains_iff_mem : ∀ (seen : List GoStr) (m : GoStr), seen.contains m = true ↔ m ∈ seen := by
  intro seen m
  simp

theorem dedupFirst_not_mem_seen : ∀ (ms seen : List GoStr) (m : GoStr),
    m ∈ dedupFirst ms seen → ¬ m ∈ seen := by
  intro ms
  induction ms with
  | nil => intro seen m h; simp [dedupFirst] at h
  | cons m0 ms ih =>
    intro seen m h
    by_cases hc : seen.contains m0 = true
    · rw [dedupFirst, if_pos hc] at h
      exact ih seen m h
    · rw [dedupFirst, if_neg hc] at h
      cases h with
      | head _ =>
        intro hmem
        exact hc ((contains_iff_mem seen _).mpr hmem)
      | tail _ h2 =>
        intro hmem
        exact ih (m0 :: seen) m h2 (List.mem_cons_of_mem m0 hmem)

theorem dedupFirst_nodup : ∀ (ms seen : List GoStr), (dedupFirst ms seen).Nodup := by
  intro ms
  induction ms with
  | nil => intro seen; simp [dedupFirst]
  | cons m0 ms ih =>
    intro seen
    by_cases hc : seen.contains m0 = true
    · rw [dedupFirst, if_pos hc]
      exact ih seen
    · rw [dedupFirst, if_neg hc]
      refine List.nodup_cons.mpr ⟨?_, ih (m0 :: seen)⟩
      intro hmem
      exact dedupFirst_not_mem_seen ms (m0 :: seen) m0 hmem (List.mem_cons_self m0 seen)

theorem keepFile_eq_some : ∀ {fs : FS} {ex : List GoStr} {mx : Int} {m : GoStr} {f : FileInfo},
    keepFile fs ex mx m = some f →
      isExcluded ex m = false ∧
      ∃ info, fs.stat m = some info ∧ info.regular = true ∧
        ¬(mx > 0 ∧ info.size > mx) ∧ f = ⟨m, info.size⟩ := by
  intro fs ex mx m f h
  rw [keepFile] at h
  split at h
  · cases h
  · next he =>
    split at h
    · cases h
    · next info heq =>
      split at h
      · cases h
      · next hr =>
        split at h
        · cases h
        · next hz =>
          injection h with h2
          exact ⟨by simpa using he, info, heq, by simpa using hr, hz, h2.symm⟩

theorem keepFile_some_of : ∀ {fs : FS} {ex : List GoStr} {mx : Int} {m : GoStr} {info : StatInfo},
    isExcluded ex m = false → fs.stat m = some info → info.regular = true →
    ¬(mx > 0 ∧ info.size > mx) →
    keepFile fs ex mx m = some ⟨m, info.size⟩ := by
  intro fs ex mx m info he hs hr hz
  rw [keepFile]
  rw [if_neg (by simp [he])]
  rw [hs]
  simp only []
  rw [if_neg (by simp [hr])]
  rw [if_neg hz]

theorem filterMap_keep_paths_sublist : ∀ (fs : FS) (ex : List GoStr) (mx : Int) (l : List GoStr),
    ((l.filterMap (keepFile fs ex mx)).map FileInfo.path).Sublist l := by
  intro fs ex mx l
  induction l with
  | nil => simp
  | cons m ms ih =>
    cases hk : keepFile fs ex mx m with
    | none =>
      rw [List.filterMap_cons_none hk]
      exact ih.cons m
    | some f =>
      rw [List.filterMap_cons_some hk]
      have hp : f.path = m := by
        obtain ⟨_, info, _, _, _, hf⟩ := keepFile_eq_some hk
        rw [hf]
      simp only [List.map_cons, hp]
      exact ih.cons₂ m

/-- C2: for every candidate path and exclude pattern containing the
recursive marker, the candidate matches the recursive exclude exactly
when the trimmed piece before the marker is empty or contained in the
path as a plain substring, and the trimmed piece after the marker is
empty or glob-matches the base name of the path.  In particular the
prefix check is plain substring containment, so the pattern vendor
slash-star-star also excludes a path whose directory name merely ends
in vendor. -/
theorem c2_matchesRecursiveExclude_spec (path pattern pre0 suf0 : GoStr)
    (hsplit : splitFirst pattern starStar = some (pre0, suf0)) :
    matchesRecursiveExclude path pattern =
      (((trimTrailSlash pre0).isEmpty || goContains path (trimTrailSlash pre0)) &&
       ((trimLeadSlash suf0).isEmpty || okTrue (goMatch (trimLeadSlash suf0) (baseName path)))) := by
  rw [matchesRecursiveExclude, hsplit]
  simp only []
  by_cases hpre : (trimTrailSlash pre0).isEmpty = true
  · rw [if_neg (by simp [hpre])]
    by_cases hsuf : (trimLeadSlash suf0).isEmpty = true
    · rw [if_neg (by simp [hsuf])]
      simp [hpre, hsuf]
    · rw [if_pos (by simp [hsuf])]
      simp [hpre, hsuf]
  · by_cases hcont : goContains path (trimTrailSlash pre0) = true
    · rw [if_neg (by simp [hcont])]
      by_cases hsuf : (trimLeadSlash suf0).isEmpty = true
      · rw [if_neg (by simp [hsuf])]
        simp [hpre, hsuf, hcont]
      · rw [if_pos (by simp [hsuf])]
        simp [hpre, hsuf, hcont]
    · rw [if_pos (by simp [hpre, hcont])]
      simp [hpre, hcont]

/-- C2 witness: the exclude pattern vendor slash-star-star excludes the
path whose abcvendor directory merely contains vendor as a substring,
by the theorem applied at that concrete input. -/
theorem c2_witness : matchesRecursiveExclude (strL "/foo/abcvendor/x") (strL "vendor/**") = true := by
  rw [c2_matchesRecursiveExclude_spec (strL "/foo/abcvendor/x") (strL "vendor/**")
    (strL "vendor/") (strL "") (by decide)]
  decide
/-- C3: SelectFiles returns an error exactly when some effective include
pattern without the recursive marker fails to expand because
filepath.Glob rejects it, and then the whole selection is aborted with
no partial result (the error carries no file list); stat failures,
non-regular files, oversized files and per-entry walk errors never
surface as an error, since the equivalence holds for every filesystem
environment regardless of its stat and walk behaviour. -/
theorem c3_selectFiles_error_iff (fs : FS) (sel : FileSelector) :
    (∃ e, SelectFiles fs sel = .error e) ↔
      ∃ p ∈ effPatterns sel.patterns,
        goContains p starStar = false ∧ ∃ e2, fs.glob p = .error e2 :=
  selectPats_err_iff fs sel.excludes sel.maxFileSize (effPatterns sel.patterns) [] []

/-- A filesystem environment on which one include pattern is malformed
while another matches a file: Glob accepts only the single star. -/
def fsBad : FS where
  glob := fun p =>
    if p = strL "*" then .ok [strL "a.go"] else .error (strL "syntax error in pattern")
  walk := fun _ => []
  stat := fun p => if p = strL "/abs/a.go" then some ⟨10, true⟩ else none
  abs := fun p => some (strL "/abs/" ++ p)
  rel := fun _ p => some p

/-- C4 counterexample: with the include patterns left-bracket and star,
the malformed first pattern aborts the whole run with an error even
though the remaining star pattern alone selects a file — refuting the
claim that a parse failure of one include pattern does not terminate
selection of the remaining patterns. -/
theorem c4_counterexample :
    (∃ e, SelectFiles fsBad ⟨[strL "[", strL "*"], [], 0⟩ = .error e) ∧
    SelectFiles fsBad ⟨[strL "*"], [], 0⟩ = .ok [⟨strL "/abs/a.go", 10⟩] := by
  constructor
  · exact ⟨mkExpandErr (strL "[") (strL "syntax error in pattern"), rfl⟩
  · rfl

theorem expandGlob_error_inv : ∀ (fs : FS) (p e : GoStr),
    expandGlob fs p = .error e → goContains p starStar = false ∧ fs.glob p = .error e := by
  intro fs p e h
  by_cases hc : goContains p starStar = true
  · obtain ⟨ms, hms⟩ := expandGlob_rec_ok fs p hc
    rw [hms] at h
    cases h
  · refine ⟨by simpa using hc, ?_⟩
    rw [expandGlob, if_neg hc] at h
    cases hg : fs.glob p with
    | error e2 =>
      rw [hg] at h
      injection h with h2
      rw [h2]
    | ok ms =>
      rw [hg] at h
      cases h

theorem selectPats_first_err : ∀ (fs : FS) (excl : List GoStr) (mx : Int)
    (ps1 : List GoStr) (p : GoStr) (ps2 : List GoStr) (e : GoStr),
    (∀ q ∈ ps1, isErrE (expandGlob fs q) = false) →
    goContains p starStar = false → fs.glob p = .error e →
    ∀ (seen : List GoStr) (files : List FileInfo),
    selectPats fs excl mx (ps1 ++ p :: ps2) seen files = .error (mkExpandErr p e) := by
  intro fs excl mx ps1
  induction ps1 with
  | nil =>
    intro p ps2 e _ hc hg seen files
    simp only [List.nil_append, selectPats]
    rw [expandGlob_err_val fs p e hc hg]
  | cons q qs ih =>
    intro p ps2 e hok hc hg seen files
    have hq := hok q (List.mem_cons_self q qs)
    obtain ⟨ms, hms⟩ := isErrE_false_ok hq
    simp only [List.cons_append, selectPats]
    rw [hms]
    exact ih p ps2 e (fun r hr => hok r (List.mem_cons_of_mem q hr)) hc hg _ _

theorem selectPats_err_val : ∀ (fs : FS) (ex : List GoStr) (mx : Int) (ps : List GoStr)
    (seen : List GoStr) (files : List FileInfo) (e : GoStr),
    selectPats fs ex mx ps seen files = .error e →
    ∃ p ∈ ps, goContains p starStar = false ∧
      ∃ e2, fs.glob p = .error e2 ∧ e = mkExpandErr p e2 := by
  intro fs ex mx ps
  induction ps with
  | nil =>
    intro seen files e h
    simp [selectPats] at h
  | cons p ps ih =>
    intro seen files e h
    cases heg : expandGlob fs p with
    | error e0 =>
      rw [selectPats, heg] at h
      injection h with h2
      obtain ⟨hc, hg⟩ := expandGlob_error_inv fs p e0 heg
      exact ⟨p, List.mem_cons_self p ps, hc, e0, hg, h2.symm⟩
    | ok ms =>
      rw [selectPats, heg] at h
      simp only [] at h
      obtain ⟨q, hq, h3⟩ := ih _ _ _ h
      exact ⟨q, List.mem_cons_of_mem p hq, h3⟩

/-- C4 amended: select fails only by returning an empty result or a
descriptive error for a malformed pattern — every error returned by
SelectFiles is the wrapped error of an effective include pattern that
contains no recursive marker and is rejected by filepath.Glob — and a
parse failure of one include pattern terminates the whole selection:
the first include pattern rejected by Glob, coming after any patterns
that expand successfully, makes SelectFiles return that pattern's
wrapped error, whatever include patterns follow it. -/
theorem c4_first_parse_failure_aborts (fs : FS) :
    (∀ (ps1 : List GoStr) (p : GoStr) (ps2 excl : List GoStr) (mx : Int) (e : GoStr),
      (∀ q ∈ ps1, isErrE (expandGlob fs q) = false) →
      goContains p starStar = false → fs.glob p = .error e →
      SelectFiles fs ⟨ps1 ++ p :: ps2, excl, mx⟩ = .error (mkExpandErr p e)) ∧
    (∀ (sel : FileSelector) (e : GoStr), SelectFiles fs sel = .error e →
      ∃ p ∈ effPatterns sel.patterns, goContains p starStar = false ∧
        ∃ e2, fs.glob p = .error e2 ∧ e = mkExpandErr p e2) := by
  constructor
  · intro ps1 p ps2 excl mx e hok hc hg
    show selectPats fs excl mx (effPatterns (ps1 ++ p :: ps2)) [] [] = .error (mkExpandErr p e)
    rw [effPatterns, if_neg (by simp)]
    exact selectPats_first_err fs excl mx ps1 p ps2 e hok hc hg [] []
  · intro sel e h
    exact selectPats_err_val fs sel.excludes sel.maxFileSize (effPatterns sel.patterns) [] [] e h

/-- C4 witness: the amended claim applied on the concrete environment,
with a successfully expanding star pattern before the malformed
pattern and a further pattern after it that is never processed. -/
theorem c4_witness :
    SelectFiles fsBad ⟨[strL "*", strL "[", strL "*.go"], [], 0⟩ =
      .error (mkExpandErr (strL "[") (strL "syntax error in pattern")) :=
  (c4_first_parse_failure_aborts fsBad).1 [strL "*"] (strL "[") [strL "*.go"] [] 0
    (strL "syntax error in pattern") (by decide) (by decide) rfl

/-- C8: an empty include pattern list behaves identically to the single
pattern consisting of one star, for every filesystem environment, every
exclude list and every maximum size — in particular for no excludes and
no size limit. -/
theorem c8_empty_includes_default (fs : FS) (excl : List GoStr) (mx : Int) :
    SelectFiles fs ⟨[], excl, mx⟩ = SelectFiles fs ⟨[strL "*"], excl, mx⟩ := rfl

/-- C9: LoadConfig returns the default configuration without error when
no file exists at the path; when the file exists but cannot be opened
or read, or its contents fail to parse as YAML, it returns an error and
no configuration. -/
theorem c9_loadConfig_spec (env : ConfigEnv) (path : String) :
    (env.read path = .noFile → LoadConfig env path = .ok DefaultConfig) ∧
    (env.read path = .openFail → ∃ e, LoadConfig env path = .error e) ∧
    (env.read path = .readFail → ∃ e, LoadConfig env path = .error e) ∧
    (∀ data e, env.read path = .content data →
      env.unmarshal data DefaultConfig = .error e → ∃ e2, LoadConfig env path = .error e2) := by
  refine ⟨?_, ?_, ?_, ?_⟩
  · intro h; rw [LoadConfig, h]
  · intro h; rw [LoadConfig, h]; exact ⟨_, rfl⟩
  · intro h; rw [LoadConfig, h]; exact ⟨_, rfl⟩
  · intro data e h hu
    rw [LoadConfig, h]
    simp only []
    rw [hu]
    exact ⟨_, rfl⟩

/-- An environment with no configuration file anywhere. -/
def envNoFile : ConfigEnv where
  read := fun _ => .noFile
  unmarshal := fun _ c => .ok c

/-- C9 witness: on an environment without the file, LoadConfig yields
the defaults, by the theorem applied at a concrete path. -/
theorem c9_witness : LoadConfig envNoFile "aicodeprep.yaml" = .ok DefaultConfig :=
  (c9_loadConfig_spec envNoFile "aicodeprep.yaml").1 rfl

/-- C10: the default configuration carries exactly the three built-in
exclude patterns and a one-megabyte size cap; Merge appends files and
excludes to the existing lists (so built-in excludes are never removed)
and overwrites prompt, output and the size cap only for a non-empty,
respectively strictly positive, supplied value; merging all-empty and
non-positive arguments leaves the configuration unchanged. -/
theorem c10_defaults_and_merge :
    DefaultConfig.Exclude = ["vendor/**", "node_modules/**", ".git/**"] ∧
    DefaultConfig.MaxFileSize = 1048576 ∧
    (∀ (c : Config) (files exclude : List String) (prompt output : String) (mx : Int),
      (Merge c files exclude prompt output mx).Files = c.Files ++ files ∧
      (Merge c files exclude prompt output mx).Exclude = c.Exclude ++ exclude ∧
      (Merge c files exclude prompt output mx).Prompt =
        (if prompt = "" then c.Prompt else prompt) ∧
      (Merge c files exclude prompt output mx).Output =
        (if output = "" then c.Output else output) ∧
      (Merge c files exclude prompt output mx).MaxFileSize =
        (if 0 < mx then mx else c.MaxFileSize)) ∧
    (∀ (c : Config) (mx : Int), mx ≤ 0 → Merge c [] [] "" "" mx = c) := by
  refine ⟨rfl, rfl, ?_, ?_⟩
  · intro c files exclude prompt output mx
    cases files with
    | nil =>
      cases exclude with
      | nil =>
        by_cases hp : prompt = "" <;> by_cases ho : output = "" <;> by_cases hm : mx > 0 <;>
          simp [Merge, hp, ho, hm]
      | cons e es =>
        by_cases hp : prompt = "" <;> by_cases ho : output = "" <;> by_cases hm : mx > 0 <;>
          simp [Merge, hp, ho, hm]
    | cons f fsx =>
      cases exclude with
      | nil =>
        by_cases hp : prompt = "" <;> by_cases ho : output = "" <;> by_cases hm : mx > 0 <;>
          simp [Merge, hp, ho, hm]
      | cons e es =>
        by_cases hp : prompt = "" <;> by_cases ho : output = "" <;> by_cases hm : mx > 0 <;>
          simp [Merge, hp, ho, hm]
  · intro c mx hm
    have h2 : ¬ mx > 0 := by omega
    simp [Merge, h2]

/-- C10 witness: merging all-empty and non-positive arguments into the
default configuration leaves it unchanged, by the theorem applied at a
concrete negative size. -/
theorem c10_witness : Merge DefaultConfig [] [] "" "" (-5) = DefaultConfig :=
  c10_defaults_and_merge.2.2.2 DefaultConfig (-5) (by norm_num)

theorem selectPats_ok_inv : ∀ (fs : FS) (ex : List GoStr) (mx : Int) (ps : List GoStr)
    (seen : List GoStr) (files0 files : List FileInfo),
    selectPats fs ex mx ps seen files0 = .ok files →
    ∃ all, expandAll fs ps = .ok all ∧
      files = files0 ++ (dedupFirst all seen).filterMap (keepFile fs ex mx) := by
  intro fs ex mx ps
  induction ps with
  | nil =>
    intro seen files0 files h
    simp only [selectPats, Except.ok.injEq] at h
    exact ⟨[], rfl, by simp [dedupFirst, h]⟩
  | cons p ps ih =>
    intro seen files0 files h
    cases heg : expandGlob fs p with
    | error e =>
      rw [selectPats, heg] at h
      cases h
    | ok ms =>
      rw [selectPats, heg] at h
      simp only [] at h
      rw [selectLoop_eq] at h
      obtain ⟨all2, ha2, hf⟩ := ih _ _ _ h
      refine ⟨ms ++ all2, ?_, ?_⟩
      · rw [expandAll, heg, ha2]
      · rw [hf, dedupFirst_append]
        simp [List.filterMap_append]

/-- C5: when every effective include pattern expands successfully, the
result of SelectFiles is exactly the first-occurrence deduplication of
the matches accumulated across patterns in input order, filtered by the
per-candidate checks — so a path matched by several include patterns
appears exactly once, at the position of its first match, and the
resulting path list has no duplicates. -/
theorem c5_dedup_first_occurrence (fs : FS) (sel : FileSelector) (allMs : List GoStr)
    (h : expandAll fs (effPatterns sel.patterns) = .ok allMs) :
    SelectFiles fs sel =
      .ok ((dedupFirst allMs []).filterMap (keepFile fs sel.excludes sel.maxFileSize)) ∧
    ((((dedupFirst allMs []).filterMap (keepFile fs sel.excludes sel.maxFileSize)).map
        FileInfo.path).Nodup) := by
  constructor
  · have h2 := selectPats_ok fs sel.excludes sel.maxFileSize (effPatterns sel.patterns) allMs [] [] h
    simpa [SelectFiles] using h2
  · exact List.Nodup.sublist
      (filterMap_keep_paths_sublist fs sel.excludes sel.maxFileSize (dedupFirst allMs []))
      (dedupFirst_nodup allMs [])

/-- C5 witness: with the star pattern given twice, the single matched
file appears exactly once, by the theorem applied on the concrete
environment. -/
theorem c5_witness :
    SelectFiles fsBad ⟨[strL "*", strL "*"], [], 0⟩ =
      .ok ((dedupFirst [strL "/abs/a.go", strL "/abs/a.go"] []).filterMap
        (keepFile fsBad [] 0)) ∧
    ((((dedupFirst [strL "/abs/a.go", strL "/abs/a.go"] []).filterMap
        (keepFile fsBad [] 0)).map FileInfo.path).Nodup) :=
  c5_dedup_first_occurrence fsBad ⟨[strL "*", strL "*"], [], 0⟩
    [strL "/abs/a.go", strL "/abs/a.go"] rfl

/-- C6: every file returned by a successful SelectFiles run fails the
exclusion test — a candidate matching any exclude pattern is never
returned, whatever include pattern produced it. -/
theorem c6_exclusion_precedence (fs : FS) (sel : FileSelector) (files : List FileInfo)
    (h : SelectFiles fs sel = .ok files) :
    ∀ f ∈ files, isExcluded sel.excludes f.path = false := by
  intro f hf
  obtain ⟨all, _, hfe⟩ := selectPats_ok_inv fs sel.excludes sel.maxFileSize
    (effPatterns sel.patterns) [] [] files h
  rw [hfe] at hf
  simp only [List.nil_append] at hf
  obtain ⟨m, hm, hk⟩ := List.mem_filterMap.mp hf
  obtain ⟨hex, info, _, _, _, hfeq⟩ := keepFile_eq_some hk
  rw [hfeq]
  exact hex

/-- C6 witness: with a recursive exclude pattern for a sub directory,
the returned file is not excluded, by the theorem applied on the
concrete environment at the single returned file. -/
theorem c6_witness : isExcluded [strL "sub/**"] (strL "/abs/a.go") = false :=
  c6_exclusion_precedence fsBad ⟨[strL "*"], [strL "sub/**"], 0⟩
    [⟨strL "/abs/a.go", 10⟩] rfl ⟨strL "/abs/a.go", 10⟩ (by simp)

/-- C7: for a positive maximum size no returned entry exceeds it, every
returned entry carries the stat size of a regular file at selection
time, and for a non-positive maximum size no candidate is dropped
because of its size: every deduplicated, non-excluded candidate that
stats as a regular file appears in the result. -/
theorem c7_size_filter (fs : FS) (sel : FileSelector) (allMs : List GoStr)
    (files : List FileInfo)
    (hall : expandAll fs (effPatterns sel.patterns) = .ok allMs)
    (h : SelectFiles fs sel = .ok files) :
    (0 < sel.maxFileSize → ∀ f ∈ files, f.size ≤ sel.maxFileSize) ∧
    (∀ f ∈ files, ∃ info, fs.stat f.path = some info ∧ info.regular = true ∧
      f.size = info.size) ∧
    (sel.maxFileSize ≤ 0 → ∀ m ∈ dedupFirst allMs [], ∀ info, fs.stat m = some info →
      info.regular = true → isExcluded sel.excludes m = false →
      (⟨m, info.size⟩ : FileInfo) ∈ files) := by
  have hfe : files =
      (dedupFirst allMs []).filterMap (keepFile fs sel.excludes sel.maxFileSize) := by
    have h2 := selectPats_ok fs sel.excludes sel.maxFileSize (effPatterns sel.patterns)
      allMs [] [] hall
    have h3 : SelectFiles fs sel =
        .ok ((dedupFirst allMs []).filterMap (keepFile fs sel.excludes sel.maxFileSize)) := by
      simpa [SelectFiles] using h2
    exact Except.ok.inj (h.symm.trans h3)
  refine ⟨?_, ?_, ?_⟩
  · intro hmx f hf
    rw [hfe] at hf
    obtain ⟨m, hm, hk⟩ := List.mem_filterMap.mp hf
    obtain ⟨_, info, _, _, hz, hfeq⟩ := keepFile_eq_some hk
    rw [hfeq]
    simp only []
    omega
  · intro f hf
    rw [hfe] at hf
    obtain ⟨m, hm, hk⟩ := List.mem_filterMap.mp hf
    obtain ⟨_, info, hstat, hreg, _, hfeq⟩ := keepFile_eq_some hk
    refine ⟨info, ?_, hreg, ?_⟩
    · rw [hfeq]; exact hstat
    · rw [hfeq]
  · intro hmx m hm info hstat hreg hexc
    rw [hfe]
    exact List.mem_filterMap.mpr ⟨m, hm, keepFile_some_of hexc hstat hreg (by omega)⟩

/-- C7 witness: on the concrete environment with a one-megabyte cap the
returned entry respects the cap and carries its stat size, by the
theorem applied with both hypotheses discharged by evaluation. -/
theorem c7_witness :
    (0 < (1048576 : Int) → ∀ f ∈ [(⟨strL "/abs/a.go", 10⟩ : FileInfo)], f.size ≤ 1048576) ∧
    (∀ f ∈ [(⟨strL "/abs/a.go", 10⟩ : FileInfo)], ∃ info, fsBad.stat f.path = some info ∧
      info.regular = true ∧ f.size = info.size) ∧
    ((1048576 : Int) ≤ 0 → ∀ m ∈ dedupFirst [strL "/abs/a.go"] [], ∀ info,
      fsBad.stat m = some info → info.regular = true → isExcluded [] m = false →
      (⟨m, info.size⟩ : FileInfo) ∈ [(⟨strL "/abs/a.go", 10⟩ : FileInfo)]) :=
  c7_size_filter fsBad ⟨[strL "*"], [], 1048576⟩ [strL "/abs/a.go"]
    [⟨strL "/abs/a.go", 10⟩] rfl rfl

theorem okTrue_eq_false_of_ne : ∀ {x : Except Unit Bool}, ¬ x = Except.ok true → okTrue x = false := by
  intro x h
  cases x with
  | error u => rfl
  | ok b =>
    cases b with
    | true => exact absurd rfl h
    | false => rfl

theorem okTrue_error : ∀ (u : Unit), okTrue (.error u) = false := fun _ => rfl

theorem okTrue_ok : ∀ (b : Bool), okTrue (.ok b) = b := by
  intro b
  cases b <;> rfl

theorem walkCollect_filterMap (fs : FS) (root suf : GoStr)
    (hrel : ∀ p, (fs.rel root p).isSome) :
    ∀ (l : List WalkEntry),
    walkCollect fs root suf l = l.filterMap (fun e =>
      if (!e.hasErr && !e.isDir &&
          (suf.isEmpty || okTrue (goMatch suf ((fs.rel root e.path).getD [])) ||
           okTrue (goMatch suf (baseName e.path)))) = true
      then fs.abs e.path else none) := by
  intro l
  induction l with
  | nil => simp [walkCollect]
  | cons e es ih =>
    rw [walkCollect]
    rw [List.filterMap_cons]
    by_cases h1 : e.hasErr = true
    · rw [if_pos h1, ih]
      rw [if_neg (by simp [h1])]
    · rw [if_neg h1]
      by_cases h2 : e.isDir = true
      · rw [if_pos h2, ih]
        rw [if_neg (by simp [h2])]
      · rw [if_neg h2]
        by_cases h3 : suf.isEmpty = true
        · rw [if_pos h3]
          rw [if_pos (by simp [h1, h2, h3])]
          cases habs : fs.abs e.path with
          | none => rw [ih]
          | some a => rw [ih]
        · rw [if_neg h3]
          obtain ⟨rp, hrp⟩ := Option.isSome_iff_exists.mp (hrel e.path)
          rw [hrp]
          simp only []
          cases hgm : goMatch suf rp with
          | error u =>
            rw [if_neg ?_]
            · exact ih
            · have hb : okTrue (goMatch suf (baseName e.path)) = false :=
                okTrue_eq_false_of_ne (goMatch_error_imp hgm)
              simp [h3, hb, hgm, okTrue_error]
          | ok mb =>
            cases mb with
            | true =>
              rw [if_pos ?_]
              · cases habs : fs.abs e.path with
                | none => rw [ih]
                | some a => rw [ih]
              · simp [h1, h2, hgm, okTrue_ok]
            | false =>
              cases hgb : goMatch suf (baseName e.path) with
              | error u =>
                rw [if_neg ?_]
                · exact ih
                · simp [h3, hgm, hgb, okTrue_ok, okTrue_error]
              | ok bb =>
                cases bb with
                | true =>
                  rw [if_pos ?_]
                  · cases habs : fs.abs e.path with
                    | none => rw [ih]
                    | some a => rw [ih]
                  · simp [h1, h2, hgm, hgb, okTrue_ok]
                | false =>
                  rw [if_neg ?_]
                  · exact ih
                  · simp [h3, hgm, hgb, okTrue_ok, okTrue_error]

/-- C1: for an include pattern containing the recursive marker (split
by SplitN at the first marker into the given two pieces), recursive
expansion trims a trailing separator from the piece before the marker
and a leading separator from the piece after it, walks from the
resulting prefix (or the current directory when it is empty), never
emits directories or errored entries, and emits a walked file exactly
when the suffix is empty, or the path relative to the walk root
glob-matches the suffix, or the base name glob-matches the suffix;
every emitted file is passed through filepath.Abs.  Stated under the
assumption that filepath.Rel succeeds, as it does in Go for the paths
handed to the callback by WalkDir from that root. -/
theorem c1_expandRecursiveGlob_spec (fs : FS) (pattern pre0 suf0 : GoStr)
    (hsplit : splitFirst pattern starStar = some (pre0, suf0))
    (hrel : ∀ r p, (fs.rel r p).isSome) :
    expandRecursiveGlob fs pattern =
      .ok ((fs.walk (if (trimTrailSlash pre0).isEmpty then ['.'] else trimTrailSlash pre0)).filterMap
        (fun e =>
          if (!e.hasErr && !e.isDir &&
              ((trimLeadSlash suf0).isEmpty ||
               okTrue (goMatch (trimLeadSlash suf0)
                 ((fs.rel (if (trimTrailSlash pre0).isEmpty then ['.'] else trimTrailSlash pre0)
                   e.path).getD [])) ||
               okTrue (goMatch (trimLeadSlash suf0) (baseName e.path)))) = true
          then fs.abs e.path else none)) := by
  rw [expandRecursiveGlob, hsplit]
  simp only [Except.ok.injEq]
  exact walkCollect_filterMap fs _ (trimLeadSlash suf0)
    (fun p => hrel _ p) _

/-- A filesystem environment for exercising recursive expansion: the
src directory holds one regular file, one directory and one entry whose
walk callback receives an error. -/
def fsWalk : FS where
  glob := fun _ => .ok []
  walk := fun r =>
    if r = strL "src" then
      [⟨strL "src", true, false⟩, ⟨strL "src/a.go", false, false⟩, ⟨strL "src/bad", false, true⟩]
    else []
  stat := fun _ => none
  abs := fun p => some (strL "/abs/" ++ p)
  rel := fun _ p => some p

/-- C1 witness: expanding the src recursive pattern on the concrete
environment emits exactly the absolute path of the one walked regular
file, skipping the directory and the errored entry, by the theorem
applied with its hypotheses discharged by evaluation. -/
theorem c1_witness : expandRecursiveGlob fsWalk (strL "src/**") = .ok [strL "/abs/src/a.go"] := by
  rw [c1_expandRecursiveGlob_spec fsWalk (strL "src/**") (strL "src/") (strL "")
    (by decide) (fun r p => rfl)]
  rfl

end AicodeprepGo
